import Mathlib

/-!
Verification of the generic CSP engine in `sudokuCSP.py` (class `CSP`):
variable/domain store, directed binary constraints, AC-3 propagation
(`inference`/`revise`) and backtracking search (`backtracking_search` /
`backtrack`), with the two instrumentation counters.

Embedding conventions:
* Variables are modelled as natural numbers, domain values as integers
  (the Python code treats both as opaque, equality-tested data).
* A Python dict is modelled as an insertion-ordered association list.
  `dget` is `d[k]` read (with a default where Python would raise `KeyError`
  on a key that the program never misses), `dset` is `d[k] = v`
  (overwrite in place, or append for a fresh key), `dupd` is in-place
  mutation of an existing entry.
* Python object mutation is modelled by explicit state passing; `copy.deepcopy`
  is the identity on these immutable values.
* The two instance counters `backtracking_call_counter` and
  `backtracking_fail_counter` are threaded through `backtrack` and returned
  next to its result.
* `queue.pop()` pops the LAST element of a Python list; the AC-3 loop below
  therefore runs on the reversed queue, popping from the head.  The loop
  carries a fuel argument so that it is structurally recursive; `inference`
  instantiates the fuel with `fuelBound`, which is proved below to be
  large enough (`inferenceLoop_fuel_eq`), so no run of `inference` ever
  hits the fuel-exhaustion branch.
* `xk is not xj` (Python identity on variable names) is modelled as
  inequality of names.
-/

abbrev Var := Nat
abbrev Val := Int

/-- The domain store: per-variable current list of legal values
(`self.domains`, and the `assignment` dicts derived from it). -/
abbrev Assignment := List (Var × List Val)

/-- Dict read `m[v]` (association list, first matching key), with a default
for the out-of-dictionary case (which the Python program never exercises). -/
def dget {α : Type} : List (Var × α) → Var → α → α
  | [], _, d => d
  | (k, x) :: rest, v, d => if k = v then x else dget rest v d

/-- Dict write `m[v] = x`: overwrite the entry in place if the key exists,
append a fresh entry otherwise (Python dict insertion order). -/
def dset {α : Type} : List (Var × α) → Var → α → List (Var × α)
  | [], v, x => [(v, x)]
  | (k, y) :: rest, v, x => if k = v then (v, x) :: rest else (k, y) :: dset rest v x

/-- In-place mutation of an existing entry (`assignment[i].remove(...)` etc.);
a no-op when the key is absent (Python would have raised `KeyError` on the
read that precedes every such write). -/
def dupd {α : Type} : List (Var × α) → Var → α → List (Var × α)
  | [], _, _ => []
  | (k, y) :: rest, v, x => if k = v then (v, x) :: rest else (k, y) :: dupd rest v x

/-- Total number of values over all current domains (used as the measure for
the AC-3 fuel bound). -/
def domSize (m : Assignment) : Nat := (m.map (fun p => p.2.length)).sum

/-- The CSP object: `self.variables`, `self.domains`, `self.constraints`.
`constraints[i][j]` is the list of legal value pairs for the arc `(i, j)`.
(`vars` models the attribute `self.variables`; `variables` is a reserved
word in Lean.) -/
structure CSP where
  vars : List Var
  domains : Assignment
  constraints : List (Var × List (Var × List (Val × Val)))
deriving Repr, DecidableEq

/-- `CSP.__init__`: empty network, counters start at zero (the counters are
threaded through `backtrack` below rather than stored in the structure). -/
def emptyCSP : CSP := ⟨[], [], []⟩

/-- `CSP.add_variable(name, domain)`: appends `name` to `self.variables`
(unconditionally, even if already present), sets `self.domains[name]` and
resets `self.constraints[name]` to an empty table. -/
def add_variable (csp : CSP) (name : Var) (domain : List Val) : CSP :=
  { vars := csp.vars ++ [name]
    domains := dset csp.domains name domain
    constraints := dset csp.constraints name [] }

/-- `CSP.get_all_possible_pairs(a, b)`: `itertools.product(a, b)` in order. -/
def get_all_possible_pairs {α β : Type} (a : List α) (b : List β) : List (α × β) :=
  a.flatMap (fun x => b.map (fun y => (x, y)))

/-- `CSP.get_all_arcs()`: `[(i, j) for i in self.constraints for j in self.constraints[i]]`. -/
def get_all_arcs (csp : CSP) : List (Var × Var) :=
  csp.constraints.flatMap (fun r => r.2.map (fun e => (r.1, e.1)))

/-- `CSP.get_all_neighboring_arcs(var)`: `[(i, var) for i in self.constraints[var]]`. -/
def get_all_neighboring_arcs (csp : CSP) (var : Var) : List (Var × Var) :=
  (dget csp.constraints var []).map (fun e => (e.1, var))

/-- The stored constraint list `self.constraints[i][j]` for the arc `(i, j)`
(empty when no constraint is registered for the ordered pair). -/
def lookupC (csp : CSP) (i j : Var) : List (Val × Val) :=
  dget (dget csp.constraints i []) j []

/-- `CSP.add_constraint_one_way(i, j, filter_function)`: initialise
`constraints[i][j]` to the full value-pair product if absent, then filter the
current pair list through the predicate (repeated calls intersect). -/
def add_constraint_one_way (csp : CSP) (i j : Var) (filt : Val → Val → Bool) : CSP :=
  let row := dget csp.constraints i []
  let cur := if (row.map Prod.fst).contains j then dget row j []
             else get_all_possible_pairs (dget csp.domains i []) (dget csp.domains j [])
  { csp with constraints := dset csp.constraints i (dset row j (cur.filter (fun p => filt p.1 p.2))) }

/-- The inner loop of `CSP.revise`: value `a` of variable `i` has at least
one supporting value `b` in `j`'s current domain with `(a, b)` a stored
legal pair of the arc `(i, j)`. -/
def suppB (csp : CSP) (assignment : Assignment) (i j : Var) (a : Val) : Bool :=
  (dget assignment j []).any (fun b => decide ((a, b) ∈ lookupC csp i j))

/-- `CSP.revise(assignment, i, j)`: collect into `inconsistencies` every value
of `i`'s current domain with no supporting value in `j`'s current domain, then
remove them (first occurrence each, `list.remove`) after the scan; returns the
mutated assignment and whether any inconsistency was found. -/
def revise (csp : CSP) (assignment : Assignment) (i j : Var) : Assignment × Bool :=
  let inconsistencies := (dget assignment i []).filter
    (fun a => ! suppB csp assignment i j a)
  let newDom := inconsistencies.foldl (fun d a => d.erase a) (dget assignment i [])
  (dupd assignment i newDom, decide (0 < inconsistencies.length))

/-- The arcs pushed back by the AC-3 loop after `i`'s domain shrank while
revising the arc `(i, j)`: `(xk, xi)` for every neighboring arc `(xk, _)`
of `i` with `xk` different from `j`. -/
def requeueArcs (csp : CSP) (i j : Var) : List (Var × Var) :=
  ((get_all_neighboring_arcs csp i).filter (fun p => p.1 ≠ j)).map (fun p => (p.1, i))

/-- The `while queue` loop of `CSP.inference`, running on the reversed queue
(Python pops from the end, appends to the end; here we pop from the head and
prepend the reversed appended arcs).  Structural recursion on a fuel
argument; the exhaustion branch is never reached for fuel `≥ fuelBound`. -/
def inferenceLoop (csp : CSP) : Nat → Assignment → List (Var × Var) → Assignment × Bool
  | _, assignment, [] => (assignment, true)
  | 0, assignment, _ :: _ => (assignment, false)
  | fuel + 1, assignment, (xi, xj) :: rest =>
    let r := revise csp assignment xi xj
    if r.2 then
      if dget r.1 xi [] = [] then (r.1, false)
      else inferenceLoop csp fuel r.1 ((requeueArcs csp xi xj).reverse ++ rest)
    else inferenceLoop csp fuel r.1 rest

/-- Fuel that always suffices for `inferenceLoop` (each loop step either pops
an arc without touching a domain, or removes at least one domain value and
pushes at most `(get_all_arcs csp).length` arcs). -/
def fuelBound (csp : CSP) (assignment : Assignment) (queue : List (Var × Var)) : Nat :=
  queue.length + domSize assignment * (get_all_arcs csp).length

/-- `CSP.inference(assignment, queue)`: the AC-3 worklist algorithm. -/
def inference (csp : CSP) (assignment : Assignment) (queue : List (Var × Var)) :
    Assignment × Bool :=
  inferenceLoop csp (fuelBound csp assignment queue) assignment queue.reverse

/-- `CSP.assignment_done(assignment)`: no variable's current value list is
longer than one (note: an empty list also passes this check). -/
def assignment_done (assignment : Assignment) : Bool :=
  (assignment.map Prod.fst).all (fun key => ! decide (1 < (dget assignment key []).length))

/-- `CSP.select_unassigned_variable(assignment)`: the first variable (in dict
order) whose current value list has more than one element, if any. -/
def select_unassigned_variable (assignment : Assignment) : Option Var :=
  (assignment.map Prod.fst).find? (fun v => decide (1 < (dget assignment v []).length))

/-- Python truthiness of `backtrack`'s result (`if result:`): `False` is
falsy, a dict is truthy iff non-empty. -/
def truthy : Option Assignment → Bool
  | none => false
  | some m => ! m.isEmpty

/-- The `for value in assignment[variable]` loop of `CSP.backtrack`,
parameterised by the recursive call `bt` (which carries the remaining
recursion fuel).  Each iteration deep-copies the parent assignment
(`dupd assignment v [a]` builds the copy with `v` forced to `[a]`), runs
AC-3 on the neighboring arcs of `v`, recurses on success of the propagation,
and returns the first truthy recursive result.  Exhausting the loop
increments the failure counter and returns `False` (`none`). -/
def tryValuesF (csp : CSP) (bt : Assignment → Nat → Nat → Option Assignment × Nat × Nat)
    (v : Var) : List Val → Assignment → Nat → Nat → Option Assignment × Nat × Nat
  | [], _, cc, fc => (none, cc, fc + 1)
  | a :: rest, assignment, cc, fc =>
    let na := dupd assignment v [a]
    let p := inference csp na (get_all_neighboring_arcs csp v)
    if p.2 then
      let r := bt p.1 cc fc
      if truthy r.1 then r
      else tryValuesF csp bt v rest assignment r.2.1 r.2.2
    else tryValuesF csp bt v rest assignment cc fc

/-- `CSP.backtrack(assignment)`, threading
`(result, backtracking_call_counter, backtracking_fail_counter)`.
The call counter is incremented on entry; if `assignment_done` the current
assignment is returned as the solution; otherwise the first undecided
variable is selected and its values are tried in order.  (The `none` branch
of the selection is unreachable: when `assignment_done` is false a variable
is always found; Python would raise there.)  The fuel argument bounds the
recursion depth and is never exhausted when `backtrack` is started with
fuel exceeding `domSize`. -/
def backtrack (csp : CSP) : Nat → Assignment → Nat → Nat → Option Assignment × Nat × Nat
  | 0, _, cc, fc => (none, cc, fc)
  | fuel + 1, assignment, cc, fc =>
    if assignment_done assignment then (some assignment, cc + 1, fc)
    else
      match select_unassigned_variable assignment with
      | none => (none, cc + 1, fc)
      | some v => tryValuesF csp (backtrack csp fuel) v (dget assignment v []) assignment (cc + 1) fc

/-- `CSP.backtracking_search()`: deep-copy the stored domains, run AC-3 over
all arcs (the success flag of this initial run is DISCARDED, exactly as in
the source, which calls `self.inference(...)` as a bare statement), then
call `backtrack` on the resulting assignment with both counters at zero. -/
def backtracking_search (csp : CSP) : Option Assignment × Nat × Nat :=
  let assignment := csp.domains
  let p := inference csp assignment (get_all_arcs csp)
  backtrack csp (domSize csp.domains + 1) p.1 0 0

/-! ## Concrete networks used as failing inputs, counterexamples and witnesses -/

/-- Two variables `0`, `1`, each with the single-value domain `{1}`, linked by
a not-equal constraint registered in both directions: an unsatisfiable
network (the failing input for the search-level claims). -/
def cspUnsat : CSP :=
  add_constraint_one_way (add_constraint_one_way
    (add_variable (add_variable emptyCSP 0 [1]) 1 [1])
    0 1 (fun x y => x ≠ y)) 1 0 (fun x y => x ≠ y)

/-- Three variables with an equality constraint `0→1` and `1→2`, registered
one way only (no reverse arcs): an asymmetric network. -/
def cspAsym : CSP :=
  add_constraint_one_way (add_constraint_one_way
    (add_variable (add_variable (add_variable emptyCSP 0 [1, 2]) 1 [1, 2]) 2 [2])
    0 1 (fun x y => x = y)) 1 2 (fun x y => x = y)

/-- A worklist on `cspAsym` that processes the arc `(0, 1)` before the arc
`(1, 2)` shrinks variable `1`'s domain (Python pops from the end). -/
def qAsym : List (Var × Var) := [(1, 2), (0, 1)]

/-- Two variables with domain `{1, 2}` and an equality constraint registered
in both directions: a symmetric, already arc-consistent network. -/
def cspSym : CSP :=
  add_constraint_one_way (add_constraint_one_way
    (add_variable (add_variable emptyCSP 0 [1, 2]) 1 [1, 2])
    0 1 (fun x y => x = y)) 1 0 (fun x y => x = y)

/-- Arc consistency of the single arc `(i, j)` in a given state: every value
still in `i`'s current domain has a supporting value in `j`'s current domain. -/
def consistentArc (csp : CSP) (asg : Assignment) (i j : Var) : Prop :=
  ∀ a ∈ dget asg i [], ∃ b ∈ dget asg j [], (a, b) ∈ lookupC csp i j

/-- Decidable check that the constraint store is symmetric: every stored
legal pair `(a, b)` of an arc `(i, j)` is stored as `(b, a)` for `(j, i)`.
(The source's docstring demands this of its callers: "all constraints are
supposed to be two-way connections".) -/
def symmetricConstraints (csp : CSP) : Bool :=
  csp.constraints.all (fun row => row.2.all (fun e =>
    e.2.all (fun p => decide ((p.2, p.1) ∈ lookupC csp e.1 row.1))))

/-- The state explored for candidate value `a` of variable `v`: the parent
state with `v` forced to `[a]`, propagated over `v`'s neighboring arcs
(together with the propagation's success flag).  It is a function of the
parent state and `a` alone. -/
def childState (csp : CSP) (v : Var) (asg : Assignment) (a : Val) : Assignment × Bool :=
  inference csp (dupd asg v [a]) (get_all_neighboring_arcs csp v)

/-- Folding the recursive call over a list of pre-computed child states:
try each in order, return the first truthy recursive result, otherwise
count one failure.  This is the spec's reading of the candidate-value loop
in which every branch is derived from the parent state alone. -/
def foldBranches (bt : Assignment → Nat → Nat → Option Assignment × Nat × Nat) :
    List (Assignment × Bool) → Nat → Nat → Option Assignment × Nat × Nat
  | [], cc, fc => (none, cc, fc + 1)
  | c :: rest, cc, fc =>
    if c.2 then
      let r := bt c.1 cc fc
      if truthy r.1 then r
      else foldBranches bt rest r.2.1 r.2.2
    else foldBranches bt rest cc fc

/-! ## Dictionary lemmas -/

theorem dget_absent {α : Type} (m : List (Var × α)) (v : Var) (d : α)
    (h : v ∉ m.map Prod.fst) : dget m v d = d := by
  induction m with
  | nil => rfl
  | cons p rest ih =>
    obtain ⟨k, x⟩ := p
    simp only [List.map_cons, List.mem_cons] at h
    push_neg at h
    have hk : ¬ k = v := fun e => h.1 e.symm
    simp only [dget, if_neg hk]
    exact ih h.2

theorem dupd_absent {α : Type} (m : List (Var × α)) (v : Var) (x : α)
    (h : v ∉ m.map Prod.fst) : dupd m v x = m := by
  induction m with
  | nil => rfl
  | cons p rest ih =>
    obtain ⟨k, y⟩ := p
    simp only [List.map_cons, List.mem_cons] at h
    push_neg at h
    have hk : ¬ k = v := fun e => h.1 e.symm
    simp only [dupd, if_neg hk]
    rw [ih h.2]

theorem dget_dupd_ne {α : Type} (m : List (Var × α)) (v w : Var) (x : α) (d : α)
    (h : v ≠ w) : dget (dupd m v x) w d = dget m w d := by
  induction m with
  | nil => rfl
  | cons p rest ih =>
    obtain ⟨k, y⟩ := p
    by_cases hk : k = v
    · subst hk
      simp [dupd, dget, h]
    · simp only [dupd, if_neg hk, dget]
      by_cases hw : k = w
      · simp only [if_pos hw]
      · simp only [if_neg hw]
        exact ih

theorem dget_dupd_present {α : Type} (m : List (Var × α)) (v : Var) (x : α) (d : α)
    (h : v ∈ m.map Prod.fst) : dget (dupd m v x) v d = x := by
  induction m with
  | nil => simp at h
  | cons p rest ih =>
    obtain ⟨k, y⟩ := p
    by_cases hk : k = v
    · simp [dupd, dget, hk]
    · simp only [List.map_cons, List.mem_cons] at h
      rcases h with h | h
      · exact absurd h.symm hk
      · simp only [dupd, if_neg hk, dget, if_neg hk]
        exact ih h

theorem dupd_dget_self {α : Type} (m : List (Var × α)) (v : Var) (d : α) :
    dupd m v (dget m v d) = m := by
  induction m with
  | nil => rfl
  | cons p rest ih =>
    obtain ⟨k, y⟩ := p
    by_cases hk : k = v
    · subst hk
      simp [dupd, dget]
    · simp only [dget, if_neg hk, dupd, if_neg hk]
      rw [ih]

theorem dget_mem {α : Type} (m : List (Var × α)) (v : Var) (d : α) :
    dget m v d = d ∨ (v, dget m v d) ∈ m := by
  induction m with
  | nil => exact Or.inl rfl
  | cons p rest ih =>
    obtain ⟨k, y⟩ := p
    by_cases hk : k = v
    · right
      simp only [dget, if_pos hk, List.mem_cons]
      left
      rw [← hk]
    · simp only [dget, if_neg hk]
      rcases ih with h | h
      · exact Or.inl h
      · exact Or.inr (List.mem_cons_of_mem _ h)

theorem domSize_dupd (m : Assignment) (v : Var) (x : List Val)
    (h : v ∈ m.map Prod.fst) :
    domSize (dupd m v x) + (dget m v []).length = domSize m + x.length := by
  induction m with
  | nil => simp at h
  | cons p rest ih =>
    obtain ⟨k, y⟩ := p
    by_cases hk : k = v
    · simp only [dupd, dget, if_pos hk, domSize, List.map_cons, List.sum_cons]
      omega
    · simp only [List.map_cons, List.mem_cons] at h
      rcases h with h | h
      · exact absurd h.symm hk
      · simp only [dupd, dget, if_neg hk, domSize, List.map_cons, List.sum_cons]
        have := ih h
        simp only [domSize] at this
        omega

theorem dget_nonempty_mem (m : Assignment) (v : Var)
    (h : dget m v [] ≠ []) : v ∈ m.map Prod.fst := by
  rcases dget_mem m v [] with h0 | h0
  · exact absurd h0 h
  · exact List.mem_map.mpr ⟨(v, dget m v []), h0, rfl⟩

/-! ## Characterisation of `revise` -/

theorem foldl_erase_cons (is : List Val) : ∀ (x : Val) (l : List Val), x ∉ is →
    is.foldl (fun d a => d.erase a) (x :: l) = x :: is.foldl (fun d a => d.erase a) l := by
  induction is with
  | nil =>
    intro x l _
    rfl
  | cons a rest ih =>
    intro x l h
    simp only [List.foldl_cons]
    have hxa : x ≠ a := fun e => h (by simp [e])
    rw [List.erase_cons_tail (by simpa using hxa)]
    exact ih x (l.erase a) (fun hm => h (List.mem_cons_of_mem _ hm))

/-- Removing, one by one, the values that fail a test from the list they were
collected from is the same as filtering the list by the test. -/
theorem foldl_erase_filter (l : List Val) (p : Val → Bool) :
    (l.filter (fun a => ! p a)).foldl (fun d a => d.erase a) l = l.filter p := by
  induction l with
  | nil => rfl
  | cons x rest ih =>
    by_cases hx : p x = true
    · rw [List.filter_cons_of_neg (by simp [hx]), List.filter_cons_of_pos hx]
      rw [foldl_erase_cons _ x rest (fun hm => by simp [List.mem_filter, hx] at hm)]
      rw [ih]
    · have hx' : p x = false := by simpa using hx
      rw [List.filter_cons_of_pos (by simp [hx']), List.filter_cons_of_neg (by simp [hx'])]
      simp only [List.foldl_cons, List.erase_cons_head]
      exact ih

theorem filter_length_pos_eq_any (l : List Val) (q : Val → Bool) :
    decide (0 < (l.filter q).length) = l.any q := by
  cases h : l.any q with
  | false =>
    have h2 : l.filter q = [] :=
      List.filter_eq_nil_iff.mpr (by simpa [List.any_eq_false] using h)
    simp [h2]
  | true =>
    obtain ⟨a, ha, hq⟩ := List.any_eq_true.mp h
    have hm : a ∈ l.filter q := List.mem_filter.mpr ⟨ha, hq⟩
    have hl : 0 < (l.filter q).length := List.length_pos.mpr (fun e => by simp [e] at hm)
    simp [hl]

/-- `revise` keeps exactly the supported values (it filters `i`'s current
domain by `suppB`) and reports whether any value was unsupported. -/
theorem revise_eq (csp : CSP) (asg : Assignment) (i j : Var) :
    revise csp asg i j =
      (dupd asg i ((dget asg i []).filter (suppB csp asg i j)),
        (dget asg i []).any (fun a => ! suppB csp asg i j a)) := by
  simp only [revise]
  rw [foldl_erase_filter, filter_length_pos_eq_any]

theorem suppB_iff (csp : CSP) (asg : Assignment) (i j : Var) (a : Val) :
    suppB csp asg i j a = true ↔ ∃ b ∈ dget asg j [], (a, b) ∈ lookupC csp i j := by
  simp [suppB, List.any_eq_true]

theorem revise_false_iff (csp : CSP) (asg : Assignment) (i j : Var) :
    (revise csp asg i j).2 = false ↔ consistentArc csp asg i j := by
  rw [revise_eq]
  simp only [List.any_eq_false, Bool.not_eq_true', Bool.not_eq_false]
  constructor
  · intro h a ha
    exact (suppB_iff csp asg i j a).mp (h a ha)
  · intro h a ha
    exact (suppB_iff csp asg i j a).mpr (h a ha)

theorem revise_false_state (csp : CSP) (asg : Assignment) (i j : Var)
    (h : (revise csp asg i j).2 = false) : (revise csp asg i j).1 = asg := by
  rw [revise_eq] at h ⊢
  simp only at h ⊢
  have h2 : (dget asg i []).filter (suppB csp asg i j) = dget asg i [] := by
    apply List.filter_eq_self.mpr
    intro a ha
    have h3 := List.any_eq_false.mp h a ha
    simpa using h3
  rw [h2, dupd_dget_self]

theorem revise_true_domSize (csp : CSP) (asg : Assignment) (i j : Var)
    (h : (revise csp asg i j).2 = true) :
    domSize (revise csp asg i j).1 < domSize asg := by
  rw [revise_eq] at h ⊢
  simp only at h ⊢
  obtain ⟨a, ha, hna⟩ := List.any_eq_true.mp h
  have hd : dget asg i [] ≠ [] := fun e => by simp [e] at ha
  have hmem := dget_nonempty_mem asg i hd
  have hlt : ((dget asg i []).filter (suppB csp asg i j)).length < (dget asg i []).length :=
    List.length_filter_lt_length_iff_exists.mpr ⟨a, ha, by simpa using hna⟩
  have hds := domSize_dupd asg i ((dget asg i []).filter (suppB csp asg i j)) hmem
  omega

/-! ## Fuel adequacy for the AC-3 loop -/

theorem row_length_le_aux (cs : List (Var × List (Var × List (Val × Val)))) (i : Var) :
    (dget cs i []).length ≤ (cs.flatMap (fun r => r.2.map (fun e => (r.1, e.1)))).length := by
  induction cs with
  | nil => simp [dget]
  | cons p rest ih =>
    obtain ⟨k, row⟩ := p
    by_cases hk : k = i
    · simp only [dget, if_pos hk, List.flatMap_cons, List.length_append, List.length_map]
      omega
    · simp only [dget, if_neg hk, List.flatMap_cons, List.length_append, List.length_map]
      omega

theorem requeue_length_le (csp : CSP) (i j : Var) :
    (requeueArcs csp i j).length ≤ (get_all_arcs csp).length := by
  have h1 : (requeueArcs csp i j).length ≤ (dget csp.constraints i []).length := by
    simp only [requeueArcs, get_all_neighboring_arcs, List.length_map]
    calc (((dget csp.constraints i []).map (fun e => (e.1, i))).filter (fun p => p.1 ≠ j)).length
        ≤ ((dget csp.constraints i []).map (fun e => (e.1, i))).length :=
          List.length_filter_le _ _
      _ = (dget csp.constraints i []).length := List.length_map _ _
  exact le_trans h1 (row_length_le_aux csp.constraints i)

theorem inferenceLoop_succ (csp : CSP) :
    ∀ (fuel : Nat) (asg : Assignment) (rq : List (Var × Var)),
    fuelBound csp asg rq ≤ fuel →
    inferenceLoop csp fuel asg rq = inferenceLoop csp (fuel + 1) asg rq := by
  intro fuel
  induction fuel with
  | zero =>
    intro asg rq h
    have hq : rq = [] := by
      cases rq with
      | nil => rfl
      | cons a r => simp [fuelBound] at h
    subst hq
    simp [inferenceLoop]
  | succ f ih =>
    intro asg rq h
    cases rq with
    | nil => simp [inferenceLoop]
    | cons arc rest =>
      obtain ⟨xi, xj⟩ := arc
      simp only [inferenceLoop]
      by_cases hrev : (revise csp asg xi xj).2 = true
      · rw [if_pos hrev, if_pos hrev]
        by_cases hemp : dget (revise csp asg xi xj).1 xi [] = []
        · rw [if_pos hemp, if_pos hemp]
        · rw [if_neg hemp, if_neg hemp]
          apply ih
          have hds := revise_true_domSize csp asg xi xj hrev
          have hreq := requeue_length_le csp xi xj
          have hmul : (domSize (revise csp asg xi xj).1 + 1) * (get_all_arcs csp).length
              ≤ domSize asg * (get_all_arcs csp).length :=
            Nat.mul_le_mul_right _ hds
          rw [Nat.succ_mul] at hmul
          simp only [fuelBound, List.length_append, List.length_reverse,
            List.length_cons] at h ⊢
          omega
      · rw [if_neg hrev, if_neg hrev]
        have hfalse : (revise csp asg xi xj).2 = false := by simpa using hrev
        rw [revise_false_state csp asg xi xj hfalse]
        apply ih
        simp only [fuelBound] at h ⊢
        simp only [List.length_cons] at h
        omega

theorem inferenceLoop_add (csp : CSP) (k : Nat) :
    ∀ (fuel : Nat) (asg : Assignment) (rq : List (Var × Var)),
    fuelBound csp asg rq ≤ fuel →
    inferenceLoop csp (fuel + k) asg rq = inferenceLoop csp fuel asg rq := by
  induction k with
  | zero => intro fuel asg rq _; rfl
  | succ n ih =>
    intro fuel asg rq h
    have h1 : fuel + (n + 1) = (fuel + n) + 1 := by omega
    rw [h1, ← inferenceLoop_succ csp (fuel + n) asg rq (le_trans h (Nat.le_add_right _ _))]
    exact ih fuel asg rq h

theorem inferenceLoop_fuel_eq (csp : CSP) (f1 f2 : Nat) (asg : Assignment)
    (rq : List (Var × Var)) (h1 : fuelBound csp asg rq ≤ f1)
    (h2 : fuelBound csp asg rq ≤ f2) :
    inferenceLoop csp f1 asg rq = inferenceLoop csp f2 asg rq := by
  rcases le_total f1 f2 with hle | hle
  · obtain ⟨k, hk⟩ := Nat.le.dest hle
    rw [← hk, inferenceLoop_add csp k f1 asg rq h1]
  · obtain ⟨k, hk⟩ := Nat.le.dest hle
    rw [← hk, inferenceLoop_add csp k f2 asg rq h2]

/-! ## Step equations of `inference` on the original (unreversed) queue -/

theorem inference_nil (csp : CSP) (asg : Assignment) :
    inference csp asg [] = (asg, true) := by
  simp [inference, inferenceLoop]

theorem inference_step_fail (csp : CSP) (asg : Assignment) (q : List (Var × Var))
    (i j : Var) (h1 : (revise csp asg i j).2 = true)
    (h2 : dget (revise csp asg i j).1 i [] = []) :
    inference csp asg (q ++ [(i, j)]) = ((revise csp asg i j).1, false) := by
  unfold inference
  have hrev : (q ++ [(i, j)]).reverse = (i, j) :: q.reverse := by
    simp
  rw [hrev]
  have hfb : fuelBound csp asg ((i, j) :: q.reverse) =
      (fuelBound csp asg ((i, j) :: q.reverse) - 1) + 1 := by
    simp only [fuelBound, List.length_cons]
    omega
  have hfb2 : fuelBound csp asg (q ++ [(i, j)]) = fuelBound csp asg ((i, j) :: q.reverse) := by
    simp [fuelBound]
  rw [hfb2, hfb]
  simp only [inferenceLoop]
  rw [if_pos h1, if_pos h2]

theorem inference_step_requeue (csp : CSP) (asg : Assignment) (q : List (Var × Var))
    (i j : Var) (h1 : (revise csp asg i j).2 = true)
    (h2 : dget (revise csp asg i j).1 i [] ≠ []) :
    inference csp asg (q ++ [(i, j)]) =
      inference csp (revise csp asg i j).1 (q ++ requeueArcs csp i j) := by
  unfold inference
  have hrv : (q ++ [(i, j)]).reverse = (i, j) :: q.reverse := by simp
  have hrv2 : (q ++ requeueArcs csp i j).reverse =
      (requeueArcs csp i j).reverse ++ q.reverse := by simp
  rw [hrv, hrv2]
  have hfb : fuelBound csp asg (q ++ [(i, j)]) = fuelBound csp asg ((i, j) :: q.reverse) := by
    simp [fuelBound]
  have hfb1 : fuelBound csp asg ((i, j) :: q.reverse) =
      (fuelBound csp asg ((i, j) :: q.reverse) - 1) + 1 := by
    simp only [fuelBound, List.length_cons]
    omega
  rw [hfb, hfb1]
  simp only [inferenceLoop]
  rw [if_pos h1, if_neg h2]
  apply inferenceLoop_fuel_eq
  · have hds := revise_true_domSize csp asg i j h1
    have hreq := requeue_length_le csp i j
    have hmul : (domSize (revise csp asg i j).1 + 1) * (get_all_arcs csp).length
        ≤ domSize asg * (get_all_arcs csp).length :=
      Nat.mul_le_mul_right _ hds
    rw [Nat.succ_mul] at hmul
    simp only [fuelBound, List.length_append, List.length_reverse, List.length_cons]
    omega
  · simp only [fuelBound, List.length_append, List.length_reverse]
    omega

/-! ## Preservation of arc consistency through the AC-3 loop -/

theorem revise_dget_self (csp : CSP) (asg : Assignment) (i j : Var) :
    dget (revise csp asg i j).1 i [] = (dget asg i []).filter (suppB csp asg i j) := by
  rw [revise_eq]
  by_cases h : i ∈ asg.map Prod.fst
  · exact dget_dupd_present asg i _ [] h
  · rw [dupd_absent asg i _ h, dget_absent asg i [] h]
    rfl

theorem revise_dget_ne (csp : CSP) (asg : Assignment) (i j w : Var) (h : w ≠ i) :
    dget (revise csp asg i j).1 w [] = dget asg w [] := by
  rw [revise_eq]
  exact dget_dupd_ne asg i w _ [] (fun e => h e.symm)

theorem revise_dget_sub (csp : CSP) (asg : Assignment) (i j w : Var) (a : Val)
    (ha : a ∈ dget (revise csp asg i j).1 w []) : a ∈ dget asg w [] := by
  by_cases hw : w = i
  · subst hw
    rw [revise_dget_self] at ha
    exact (List.mem_filter.mp ha).1
  · rwa [revise_dget_ne csp asg i j w hw] at ha

/-- After revising the arc `(i, j)`, the arc `(i, j)` itself is consistent
(for a self-arc `(i, i)` this needs the symmetry of the stored pairs). -/
theorem revise_consistent (csp : CSP) (asg : Assignment) (i j : Var)
    (hsym : ∀ i' j' a b, (a, b) ∈ lookupC csp i' j' → (b, a) ∈ lookupC csp j' i') :
    consistentArc csp (revise csp asg i j).1 i j := by
  intro a ha
  rw [revise_dget_self] at ha
  obtain ⟨ha0, hsupp⟩ := List.mem_filter.mp ha
  obtain ⟨b, hb, hab⟩ := (suppB_iff csp asg i j a).mp hsupp
  by_cases hij : j = i
  · subst hij
    refine ⟨b, ?_, hab⟩
    rw [revise_dget_self]
    exact List.mem_filter.mpr ⟨hb, (suppB_iff csp asg j j b).mpr ⟨a, ha0, hsym j j a b hab⟩⟩
  · exact ⟨b, by rwa [revise_dget_ne csp asg i j j hij], hab⟩

/-- Revising `(i, j)` cannot break consistency of any arc whose target is not
`i` (the only domain that shrank is `i`'s). -/
theorem consistent_preserved_target_ne (csp : CSP) (asg : Assignment) (i j k m : Var)
    (hm : m ≠ i) (h : consistentArc csp asg k m) :
    consistentArc csp (revise csp asg i j).1 k m := by
  intro a ha
  obtain ⟨b, hb, hab⟩ := h a (revise_dget_sub csp asg i j k a ha)
  exact ⟨b, by rwa [revise_dget_ne csp asg i j m hm], hab⟩

/-- Revising `(i, j)` keeps the reverse arc `(j, i)` consistent when the
stored pairs are symmetric: a removed value of `i` supported no value of `j`. -/
theorem consistent_preserved_back (csp : CSP) (asg : Assignment) (i j : Var)
    (hij : j ≠ i)
    (hsym : ∀ i' j' a b, (a, b) ∈ lookupC csp i' j' → (b, a) ∈ lookupC csp j' i')
    (h : consistentArc csp asg j i) :
    consistentArc csp (revise csp asg i j).1 j i := by
  intro a ha
  have ha' : a ∈ dget asg j [] := by rwa [revise_dget_ne csp asg i j j hij] at ha
  obtain ⟨b, hb, hab⟩ := h a ha'
  refine ⟨b, ?_, hab⟩
  rw [revise_dget_self]
  exact List.mem_filter.mpr ⟨hb, (suppB_iff csp asg i j b).mpr ⟨a, ha', hsym j i a b hab⟩⟩

/-- Revising `(i, j)` keeps an arc `(k, i)` consistent when `k` has no stored
constraint row entry towards ... `i → k` (then, by symmetry, `(k, i)` has no
stored pairs at all, so its consistency just says `k`'s domain is empty). -/
theorem consistent_preserved_absent (csp : CSP) (asg : Assignment) (i j k : Var)
    (hk : k ∉ (dget csp.constraints i []).map Prod.fst)
    (hsym : ∀ i' j' a b, (a, b) ∈ lookupC csp i' j' → (b, a) ∈ lookupC csp j' i')
    (h : consistentArc csp asg k i) :
    consistentArc csp (revise csp asg i j).1 k i := by
  intro a ha
  obtain ⟨b, hb, hab⟩ := h a (revise_dget_sub csp asg i j k a ha)
  have hba := hsym k i a b hab
  rw [lookupC, dget_absent (dget csp.constraints i []) k [] hk] at hba
  simp at hba

theorem mem_requeue (csp : CSP) (i j k : Var)
    (hk : k ∈ (dget csp.constraints i []).map Prod.fst) (hkj : k ≠ j) :
    (k, i) ∈ requeueArcs csp i j := by
  unfold requeueArcs get_all_neighboring_arcs
  obtain ⟨e, he, hk1⟩ := List.mem_map.mp hk
  refine List.mem_map.mpr ⟨(k, i), List.mem_filter.mpr ⟨?_, by simpa using hkj⟩, rfl⟩
  exact List.mem_map.mpr ⟨e, he, by rw [hk1]⟩

/-- Invariant of the AC-3 loop on a symmetric network: every arc that is in
the worklist or already consistent is consistent in the final state of a
successful run. -/
theorem inferenceLoop_consistent (csp : CSP)
    (hsym : ∀ i j a b, (a, b) ∈ lookupC csp i j → (b, a) ∈ lookupC csp j i) :
    ∀ (fuel : Nat) (asg : Assignment) (rq : List (Var × Var)) (S : Assignment),
    inferenceLoop csp fuel asg rq = (S, true) →
    ∀ i j, ((i, j) ∈ rq ∨ consistentArc csp asg i j) → consistentArc csp S i j := by
  intro fuel
  induction fuel with
  | zero =>
    intro asg rq S h i j hij
    cases rq with
    | nil =>
      simp only [inferenceLoop, Prod.mk.injEq] at h
      obtain ⟨h1, -⟩ := h
      subst h1
      rcases hij with hmem | hcons
      · simp at hmem
      · exact hcons
    | cons arc rest => simp [inferenceLoop] at h
  | succ f ih =>
    intro asg rq S h i j hij
    cases rq with
    | nil =>
      simp only [inferenceLoop, Prod.mk.injEq] at h
      obtain ⟨h1, -⟩ := h
      subst h1
      rcases hij with hmem | hcons
      · simp at hmem
      · exact hcons
    | cons arc rest =>
      obtain ⟨xi, xj⟩ := arc
      simp only [inferenceLoop] at h
      by_cases hrev : (revise csp asg xi xj).2 = true
      · rw [if_pos hrev] at h
        by_cases hemp : dget (revise csp asg xi xj).1 xi [] = []
        · rw [if_pos hemp] at h
          simp at h
        · rw [if_neg hemp] at h
          rcases hij with hmem | hcons
          · rcases List.mem_cons.mp hmem with heq | hrest
            · obtain ⟨hii, hjj⟩ := Prod.mk.injEq .. ▸ heq
              subst hii
              subst hjj
              exact ih _ _ _ h i j (Or.inr (revise_consistent csp asg i j hsym))
            · exact ih _ _ _ h i j (Or.inl (by simp [hrest]))
          · by_cases hji : j = xi
            · subst hji
              by_cases hixj : i = xj
              · subst hixj
                by_cases hxx : i = j
                · subst hxx
                  exact ih _ _ _ h i i (Or.inr (revise_consistent csp asg i i hsym))
                · exact ih _ _ _ h i j
                    (Or.inr (consistent_preserved_back csp asg j i hxx hsym hcons))
              · by_cases hrow : i ∈ (dget csp.constraints j []).map Prod.fst
                · refine ih _ _ _ h i j (Or.inl ?_)
                  simp only [List.mem_append, List.mem_reverse]
                  exact Or.inl (mem_requeue csp j xj i hrow hixj)
                · exact ih _ _ _ h i j
                    (Or.inr (consistent_preserved_absent csp asg j xj i hrow hsym hcons))
            · exact ih _ _ _ h i j
                (Or.inr (consistent_preserved_target_ne csp asg xi xj i j hji hcons))
      · rw [if_neg hrev] at h
        have hfalse : (revise csp asg xi xj).2 = false := by simpa using hrev
        rw [revise_false_state csp asg xi xj hfalse] at h
        rcases hij with hmem | hcons
        · rcases List.mem_cons.mp hmem with heq | hrest
          · obtain ⟨hii, hjj⟩ := Prod.mk.injEq .. ▸ heq
            subst hii
            subst hjj
            exact ih _ _ _ h i j (Or.inr ((revise_false_iff csp asg i j).mp hfalse))
          · exact ih _ _ _ h i j (Or.inl hrest)
        · exact ih _ _ _ h i j (Or.inr hcons)

/-- A worklist all of whose arcs are already consistent is drained without
any change: the AC-3 loop returns the state unchanged, successfully. -/
theorem inferenceLoop_of_consistent (csp : CSP) :
    ∀ (rq : List (Var × Var)) (fuel : Nat) (asg : Assignment),
    (∀ p ∈ rq, consistentArc csp asg p.1 p.2) → rq.length ≤ fuel →
    inferenceLoop csp fuel asg rq = (asg, true) := by
  intro rq
  induction rq with
  | nil =>
    intro fuel asg _ _
    simp [inferenceLoop]
  | cons arc rest ih =>
    intro fuel asg h hf
    obtain ⟨i, j⟩ := arc
    cases fuel with
    | zero => simp at hf
    | succ f =>
      have hc : consistentArc csp asg i j := h (i, j) (List.mem_cons_self _ _)
      have hfalse : (revise csp asg i j).2 = false := (revise_false_iff csp asg i j).mpr hc
      simp only [inferenceLoop]
      rw [if_neg (by simp [hfalse])]
      rw [revise_false_state csp asg i j hfalse]
      exact ih f asg (fun p hp => h p (List.mem_cons_of_mem _ hp)) (by simpa using hf)

/-! ## Symmetric networks and idempotence of `inference` -/

theorem symmetric_mem (csp : CSP) (h : symmetricConstraints csp = true) :
    ∀ i j a b, (a, b) ∈ lookupC csp i j → (b, a) ∈ lookupC csp j i := by
  intro i j a b hm
  rcases dget_mem csp.constraints i [] with hrow | hrow
  · rw [lookupC, hrow] at hm
    simp [dget] at hm
  · rcases dget_mem (dget csp.constraints i []) j [] with hent | hent
    · rw [lookupC, hent] at hm
      simp at hm
    · have hall := List.all_eq_true.mp h _ hrow
      have hall2 := List.all_eq_true.mp hall _ hent
      have hall3 := List.all_eq_true.mp hall2 _ hm
      simpa using hall3

/-- On a symmetric network, a successful run of `inference` leaves a state on
which a second run with the same worklist is the identity. -/
theorem inference_idempotent (csp : CSP) (asg : Assignment) (q : List (Var × Var))
    (hsym : symmetricConstraints csp = true)
    (h : (inference csp asg q).2 = true) :
    inference csp (inference csp asg q).1 q = ((inference csp asg q).1, true) := by
  have hfull : inferenceLoop csp (fuelBound csp asg q) asg q.reverse =
      ((inference csp asg q).1, true) := by
    rw [show inferenceLoop csp (fuelBound csp asg q) asg q.reverse = inference csp asg q
      from rfl]
    exact Prod.ext rfl h
  have hcons : ∀ p ∈ q.reverse,
      consistentArc csp (inference csp asg q).1 p.1 p.2 := by
    intro p hp
    exact inferenceLoop_consistent csp (symmetric_mem csp hsym) _ _ _ _ hfull p.1 p.2
      (Or.inl (by simpa using hp))
  show inferenceLoop csp (fuelBound csp (inference csp asg q).1 q)
      (inference csp asg q).1 q.reverse = _
  apply inferenceLoop_of_consistent csp q.reverse _ _ hcons
  simp [fuelBound]

/-! ## Dictionary-write lemmas (for `add_variable`) -/

theorem dget_dset_self {α : Type} (m : List (Var × α)) (v : Var) (x : α) (d : α) :
    dget (dset m v x) v d = x := by
  induction m with
  | nil => simp [dset, dget]
  | cons p rest ih =>
    obtain ⟨k, y⟩ := p
    by_cases hk : k = v
    · simp [dset, dget, hk]
    · simp only [dset, if_neg hk, dget, if_neg hk]
      exact ih

theorem dget_dset_ne {α : Type} (m : List (Var × α)) (v w : Var) (x : α) (d : α)
    (h : w ≠ v) : dget (dset m v x) w d = dget m w d := by
  induction m with
  | nil =>
    simp only [dset, dget]
    rw [if_neg (fun e => h e.symm)]
  | cons p rest ih =>
    obtain ⟨k, y⟩ := p
    by_cases hk : k = v
    · subst hk
      have hkw : ¬ k = w := fun e => h (e ▸ rfl)
      simp only [dset, if_pos rfl, dget]
      rw [if_neg hkw, if_neg hkw]
    · simp only [dset, if_neg hk, dget]
      by_cases hw : k = w
      · simp only [if_pos hw]
      · simp only [if_neg hw]
        exact ih

/-! ## `find?` facts for `select_unassigned_variable` -/

theorem select_isSome (asg : Assignment) (h : assignment_done asg = false) :
    (select_unassigned_variable asg).isSome = true := by
  unfold assignment_done at h
  rw [List.all_eq_false] at h
  obtain ⟨v, hv, hp⟩ := h
  unfold select_unassigned_variable
  rw [List.find?_isSome]
  refine ⟨v, hv, ?_⟩
  simpa using hp

theorem select_some_undecided (asg : Assignment) (v : Var)
    (h : select_unassigned_variable asg = some v) : 1 < (dget asg v []).length := by
  have := List.find?_some h
  simpa using this

theorem select_none_iff (asg : Assignment) :
    select_unassigned_variable asg = none ↔
      ∀ v ∈ asg.map Prod.fst, (dget asg v []).length ≤ 1 := by
  unfold select_unassigned_variable
  rw [List.find?_eq_none]
  constructor
  · intro h v hv
    have := h v hv
    simpa using this
  · intro h v hv
    simpa using h v hv


/-! ## Claim theorems -/

/-- C1 (failing evaluation): the claim "whenever `backtracking_search`
returns a non-failure result, the mapping assigns every registered variable
a single decided value and satisfies every registered directed constraint"
fails on the code.  On the unsatisfiable network `cspUnsat` the search
returns a non-failure mapping in which the registered variable `1` is
assigned no value at all (its list is empty, not a single decided value),
and the registered arc `(0, 1)` (whose allowed-pair set is empty) cannot be
satisfied by the returned mapping. -/
theorem c1_returned_mapping_violates_claim :
    (backtracking_search cspUnsat).1 = some [(0, [1]), (1, [])] ∧
      1 ∈ cspUnsat.vars ∧
      dget [(0, [1]), (1, [])] 1 [] = [] ∧
      (0, 1) ∈ get_all_arcs cspUnsat ∧
      lookupC cspUnsat 0 1 = [] := by decide

/-- C2 (failing evaluation): the claim "`backtrack` returns the state as a
terminal success exactly when every variable's current domain has exactly
one value, and a wiped-out state is never returned as a solution" fails on
the code: `assignment_done` only rejects lists longer than one, so the state
`[(0, [1]), (1, [])]` — in which variable `1`'s current domain is empty —
passes the done-check and is returned by `backtrack` as a solution. -/
theorem c2_wiped_state_returned_as_solution :
    assignment_done [(0, [1]), (1, [])] = true ∧
      backtrack cspUnsat 1 [(0, [1]), (1, [])] 0 0 =
        (some [(0, [1]), (1, [])], 1, 0) := by decide

/-- C3 (failing evaluation): the claim "if the initial run of AC-3 over all
arcs fails, `backtracking_search` reports no solution immediately without
entering `backtrack`" fails on the code: the source discards the return
value of the initial `inference` call.  On `cspUnsat` the initial run fails
(returns the failure flag), yet the call counter shows `backtrack` was
entered and the search does not report "no solution". -/
theorem c3_failed_initial_inference_still_enters_backtrack :
    (inference cspUnsat cspUnsat.domains (get_all_arcs cspUnsat)).2 = false ∧
      (backtracking_search cspUnsat).2.1 = 1 ∧
      (backtracking_search cspUnsat).1 ≠ none := by decide

/-- C4 (failing evaluation): the claim "an unsatisfiable network returns the
typed no-solution result with non-zero call and failure counters" fails on
the code: on `cspUnsat` (two variables with domain `{1}` and `!=` registered
both ways) `backtracking_search` returns a variable-to-value mapping (with a
wiped-out entry), the call counter is `1`, and the failure counter is `0`. -/
theorem c4_unsat_returns_mapping_and_zero_failures :
    backtracking_search cspUnsat = (some [(0, [1]), (1, [])], 1, 0) := by decide

/-- C5 (counterexample): the claim "calling `add_variable` again with a name
already present fails with `DuplicateVariable`" is false on the code: there
is no duplicate check and no failure path.  Adding `0` a second time
succeeds, appends `0` to the variable list a second time, overwrites the
stored domain, and resets the constraint table for `0`. -/
theorem c5_duplicate_add_no_failure :
    (add_variable (add_variable emptyCSP 0 [1]) 0 [2]).vars = [0, 0] ∧
      dget (add_variable (add_variable emptyCSP 0 [1]) 0 [2]).domains 0 [] = [2] ∧
      dget (add_variable (add_variable emptyCSP 0 [1]) 0 [2]).constraints 0 [] = [] := by
  decide

/-- C5 (amended): `add_variable` never fails: for any name (fresh or
duplicate) it appends the name to the variable list, stores the given domain
under the name (overwriting any previous domain), resets the name's
constraint table to empty, and leaves every other name's domain and
constraint table unchanged. -/
theorem c5_add_variable_behaviour :
    ∀ (csp : CSP) (name : Var) (domain : List Val),
      (add_variable csp name domain).vars = csp.vars ++ [name] ∧
      dget (add_variable csp name domain).domains name [] = domain ∧
      dget (add_variable csp name domain).constraints name [] = [] ∧
      (∀ m, m ≠ name →
        dget (add_variable csp name domain).domains m [] = dget csp.domains m [] ∧
        dget (add_variable csp name domain).constraints m [] =
          dget csp.constraints m []) := by
  intro csp name domain
  refine ⟨rfl, dget_dset_self _ _ _ _, dget_dset_self _ _ _ _, ?_⟩
  intro m hm
  exact ⟨dget_dset_ne _ _ _ _ _ hm, dget_dset_ne _ _ _ _ _ hm⟩

/-- Witness for C5: the amended behaviour evaluated at a concrete call. -/
theorem c5_add_variable_behaviour_witness :
    (add_variable emptyCSP 0 [1]).vars = emptyCSP.vars ++ [0] ∧
      dget (add_variable emptyCSP 0 [1]).domains 5 [] = dget emptyCSP.domains 5 [] :=
  ⟨(c5_add_variable_behaviour emptyCSP 0 [1]).1,
    ((c5_add_variable_behaviour emptyCSP 0 [1]).2.2.2 5 (by decide)).1⟩

/-- C6: one step of the AC-3 loop on the popped arc `(i, j)` (the last
element of the worklist): if `revise` removed values and `i`'s domain is now
empty, `inference` returns failure immediately, ignoring the remaining
worklist `q`; if it removed values and `i`'s domain is non-empty, the loop
continues on the remaining worklist extended with exactly the arcs `(k, i)`
for every neighbor `k` of `i` other than `j`; and on an empty worklist
`inference` returns the state unchanged with success. -/
theorem c6_inference_step_structure :
    (∀ (csp : CSP) (asg : Assignment) (q : List (Var × Var)) (i j : Var),
      (revise csp asg i j).2 = true → dget (revise csp asg i j).1 i [] = [] →
      inference csp asg (q ++ [(i, j)]) = ((revise csp asg i j).1, false)) ∧
    (∀ (csp : CSP) (asg : Assignment) (q : List (Var × Var)) (i j : Var),
      (revise csp asg i j).2 = true → dget (revise csp asg i j).1 i [] ≠ [] →
      inference csp asg (q ++ [(i, j)]) =
        inference csp (revise csp asg i j).1 (q ++ requeueArcs csp i j)) ∧
    (∀ (csp : CSP) (asg : Assignment), inference csp asg [] = (asg, true)) :=
  ⟨inference_step_fail, inference_step_requeue, inference_nil⟩

/-- Witness for C6: the wipeout case evaluated on `cspUnsat` (revising the
arc `(1, 0)` empties variable `1`'s domain and `inference` fails at once). -/
theorem c6_inference_step_structure_witness :
    (revise cspUnsat [(0, [1]), (1, [1])] 1 0).2 = true ∧
      dget (revise cspUnsat [(0, [1]), (1, [1])] 1 0).1 1 [] = [] ∧
      inference cspUnsat [(0, [1]), (1, [1])] ([] ++ [(1, 0)]) =
        ((revise cspUnsat [(0, [1]), (1, [1])] 1 0).1, false) :=
  ⟨by decide, by decide,
    c6_inference_step_structure.1 cspUnsat [(0, [1]), (1, [1])] [] 1 0
      (by decide) (by decide)⟩

/-- C7: `revise (i, j)` removes from `i`'s current domain exactly those
values with no support in `j`'s current domain under the stored constraint
`i → j` — the new domain is the filter of the old one by the support test,
computed from the domains as they were before any removal (the two-phase
mark-then-remove scan) — and its boolean result is true iff at least one
value was unsupported. -/
theorem c7_revise_characterisation :
    ∀ (csp : CSP) (asg : Assignment) (i j : Var),
      (revise csp asg i j).1 =
        dupd asg i ((dget asg i []).filter (fun a =>
          (dget asg j []).any (fun b => decide ((a, b) ∈ lookupC csp i j)))) ∧
      ((revise csp asg i j).2 = true ↔
        ∃ a ∈ dget asg i [], ∀ b ∈ dget asg j [], (a, b) ∉ lookupC csp i j) := by
  intro csp asg i j
  constructor
  · rw [revise_eq]
    rfl
  · rw [revise_eq]
    simp only []
    rw [List.any_eq_true]
    constructor
    · rintro ⟨a, ha, hna⟩
      refine ⟨a, ha, ?_⟩
      intro b hb hab
      have hs : suppB csp asg i j a = true := (suppB_iff csp asg i j a).mpr ⟨b, hb, hab⟩
      rw [hs] at hna
      simp at hna
    · rintro ⟨a, ha, hall⟩
      refine ⟨a, ha, ?_⟩
      simp only [Bool.not_eq_true']
      rw [← Bool.not_eq_true]
      intro hs
      obtain ⟨b, hb, hab⟩ := (suppB_iff csp asg i j a).mp hs
      exact hall b hb hab

/-- C8 (branch isolation): the candidate-value loop of `backtrack` is
equivalent to first computing, from the parent state alone, the child state
for every candidate value, and then folding the recursive call over that
pre-computed list: the state explored for each candidate value is
`childState csp v asg a`, a function of the (unchanged) parent state and the
value alone, so no branch can see the mutations of a previously tried
sibling, and the parent state is also passed on unchanged. -/
theorem c8_branch_isolation :
    ∀ (csp : CSP) (bt : Assignment → Nat → Nat → Option Assignment × Nat × Nat)
      (v : Var) (vals : List Val) (asg : Assignment) (cc fc : Nat),
      tryValuesF csp bt v vals asg cc fc =
        foldBranches bt (vals.map (childState csp v asg)) cc fc := by
  intro csp bt v vals
  induction vals with
  | nil =>
    intro asg cc fc
    rfl
  | cons a rest ih =>
    intro asg cc fc
    simp only [tryValuesF, foldBranches, List.map_cons, childState]
    by_cases hp : (inference csp (dupd asg v [a]) (get_all_neighboring_arcs csp v)).2 = true
    · rw [if_pos hp, if_pos hp]
      by_cases ht : truthy (bt (inference csp (dupd asg v [a])
          (get_all_neighboring_arcs csp v)).1 cc fc).1 = true
      · rw [if_pos ht, if_pos ht]
      · rw [if_neg ht, if_neg ht, ih]
    · rw [if_neg hp, if_neg hp, ih]

/-- C9 (counterexample): running `inference` twice on the same state with
the same worklist is NOT always the same as running it once.  On the
asymmetric network `cspAsym` (equality constraints registered only `0 → 1`
and `1 → 2`) with worklist `qAsym`, the first run shrinks variable `1` after
the arc `(0, 1)` was already processed and never re-checks it; the second
run then shrinks variable `0` further, so the states differ. -/
theorem c9_idempotence_counterexample :
    inference cspAsym cspAsym.domains qAsym =
        ([(0, [1, 2]), (1, [2]), (2, [2])], true) ∧
      (inference cspAsym (inference cspAsym cspAsym.domains qAsym).1 qAsym).1 ≠
        (inference cspAsym cspAsym.domains qAsym).1 := by decide

/-- C9 (amended): on a network whose stored constraints are symmetric (every
pair `(a, b)` of an arc `(i, j)` is stored as `(b, a)` for `(j, i)` — the
source docstring's "two-way connections" requirement) and when the first run
returns success, running `inference` again on the resulting state with the
same worklist returns that state unchanged (and success), so running twice
equals running once. -/
theorem c9_idempotent_on_symmetric_success (csp : CSP) (asg : Assignment)
    (q : List (Var × Var)) (hsym : symmetricConstraints csp = true)
    (h : (inference csp asg q).2 = true) :
    inference csp (inference csp asg q).1 q = ((inference csp asg q).1, true) :=
  inference_idempotent csp asg q hsym h

/-- Witness for C9 (amended): evaluated on the symmetric network `cspSym`
with the full-arc worklist. -/
theorem c9_idempotent_on_symmetric_success_witness :
    symmetricConstraints cspSym = true ∧
      (inference cspSym cspSym.domains (get_all_arcs cspSym)).2 = true ∧
      inference cspSym (inference cspSym cspSym.domains (get_all_arcs cspSym)).1
          (get_all_arcs cspSym) =
        ((inference cspSym cspSym.domains (get_all_arcs cspSym)).1, true) :=
  ⟨by decide, by decide,
    c9_idempotent_on_symmetric_success cspSym cspSym.domains (get_all_arcs cspSym)
      (by decide) (by decide)⟩

/-- C10: whenever the done-check fails (some variable's current domain has
more than one value), `select_unassigned_variable` returns some variable; a
returned variable always has a current domain with more than one value; and
it returns nothing exactly when no variable's current domain has more than
one value. -/
theorem c10_select_unassigned_variable_total :
    ∀ (asg : Assignment),
      (assignment_done asg = false → (select_unassigned_variable asg).isSome = true) ∧
      (∀ v, select_unassigned_variable asg = some v → 1 < (dget asg v []).length) ∧
      (select_unassigned_variable asg = none ↔
        ∀ v ∈ asg.map Prod.fst, (dget asg v []).length ≤ 1) :=
  fun asg => ⟨select_isSome asg, fun v => select_some_undecided asg v, select_none_iff asg⟩

/-- Witness for C10: on the one-variable state `[(0, [1, 2])]` the done-check
fails, a variable is selected, and its domain has more than one value. -/
theorem c10_select_unassigned_variable_total_witness :
    (select_unassigned_variable [(0, [1, 2])]).isSome = true ∧
      1 < (dget [(0, [1, 2])] 0 []).length :=
  ⟨(c10_select_unassigned_variable_total [(0, [1, 2])]).1 (by decide),
    (c10_select_unassigned_variable_total [(0, [1, 2])]).2.1 0 (by decide)⟩

/-- Witness for C7: the characterisation evaluated on a concrete revise call. -/
theorem c7_revise_characterisation_witness :
    (revise cspUnsat [(0, [1]), (1, [1])] 0 1).1 =
      dupd [(0, [1]), (1, [1])] 0 ((dget [(0, [1]), (1, [1])] 0 []).filter (fun a =>
        (dget [(0, [1]), (1, [1])] 1 []).any
          (fun b => decide ((a, b) ∈ lookupC cspUnsat 0 1)))) :=
  (c7_revise_characterisation cspUnsat [(0, [1]), (1, [1])] 0 1).1

/-- Witness for C8: the decomposition evaluated on a concrete loop call. -/
theorem c8_branch_isolation_witness :
    tryValuesF cspUnsat (backtrack cspUnsat 1) 0 [1] [(0, [1]), (1, [1])] 0 0 =
      foldBranches (backtrack cspUnsat 1)
        ([1].map (childState cspUnsat 0 [(0, [1]), (1, [1])])) 0 0 :=
  c8_branch_isolation cspUnsat (backtrack cspUnsat 1) 0 [1] [(0, [1]), (1, [1])] 0 0
